import Mathlib

/-!
Shallow embedding of the `todo-rs` command-line todo manager
(`src/main.rs`) and verification of its specification.

Modelling conventions:
* `Item` and `Todos` mirror the Rust `struct Item` and `type Todos = Vec<Item>`.
* serde_json values are modelled by the `Json` AST; `Item`'s derived
  `Serialize`/`Deserialize` instances are modelled by `Item.toJson` /
  `Item.fromJson` (object with fields `name : string`, `completed : bool`;
  unknown fields ignored, duplicate or missing fields rejected, as serde does).
* The persisted file `todo.json` is modelled by `FileState`: it is absent,
  present but not well-formed JSON (`invalid`), or holds a JSON value.
* Standard input is modelled as a list of lines; `get_user_input` consumes
  one line and trims it (`rustTrim` models `str::trim`).  An exhausted input
  stream makes the index-resolution loop of `get_operation_index` spin
  forever; this divergence is modelled by `Option`, `none` meaning that the
  program never returns from the read loop.
* Printing to the terminal is modelled only where the spec talks about it:
  `print_todo` returns the list of lines it would emit.
* `std::process::exit(1)` is modelled by the `ProcResult.exited` outcome
  carrying the exit code.
-/

namespace TodoRs

/-- JSON values, modelling `serde_json::Value`. -/
inductive Json where
  | null
  | bool (b : Bool)
  | num (n : Int)
  | str (s : String)
  | arr (elems : List Json)
  | obj (fields : List (String × Json))

/-- `struct Item { name: String, completed: bool }`. -/
structure Item where
  name : String
  completed : Bool
deriving Repr, DecidableEq

/-- `type Todos = Vec<Item>` (a transparent type alias in the source). -/
abbrev Todos : Type := List Item

/-- `impl Item { pub fn to_string(&self) -> String }`:
`"[x] {name}"` when completed, `"[ ] {name}"` otherwise. -/
def Item.to_string (it : Item) : String :=
  if it.completed then "[x] " ++ it.name else "[ ] " ++ it.name

/-- Derived `Serialize` for `Item`: an object with the two fields in
declaration order. -/
def Item.toJson (it : Item) : Json :=
  .obj [("name", .str it.name), ("completed", .bool it.completed)]

/-- Field loop of the derived `Deserialize` for `Item`: walk the object's
entries; `name` must be a string, `completed` a bool; a duplicate field or a
wrongly-typed field is an error; unknown fields are ignored; both fields must
be present at the end. -/
def Item.fromFields : List (String × Json) → Option String → Option Bool → Option Item
  | [], some n, some c => some ⟨n, c⟩
  | [], _, _ => none
  | (k, v) :: rest, n?, c? =>
    if k = "name" then
      match n?, v with
      | none, .str s => Item.fromFields rest (some s) c?
      | _, _ => none
    else if k = "completed" then
      match c?, v with
      | none, .bool b => Item.fromFields rest n? (some b)
      | _, _ => none
    else
      Item.fromFields rest n? c?

/-- Derived `Deserialize` for `Item`: expects a JSON object. -/
def Item.fromJson : Json → Option Item
  | .obj fields => Item.fromFields fields none none
  | _ => none

/-- Derived `Serialize` for `Vec<Item>`: a JSON array. -/
def todosToJson (todos : Todos) : Json :=
  .arr (todos.map Item.toJson)

/-- Element loop of the derived `Deserialize` for `Vec<Item>`: every element
must deserialize as an `Item`. -/
def itemsFromJson : List Json → Option (List Item)
  | [] => some []
  | j :: rest =>
    match Item.fromJson j, itemsFromJson rest with
    | some it, some its => some (it :: its)
    | _, _ => none

/-- Derived `Deserialize` for `Vec<Item>`: expects a JSON array. -/
def todosFromJson : Json → Option Todos
  | .arr elems => itemsFromJson elems
  | _ => none

/-- State of the persisted file `todo.json`. -/
inductive FileState where
  | absent
  | invalid
  | content (j : Json)

/-- `fn write_to_file(todos: Todos)`: serialize the whole list and overwrite
the file.  (`serde_json::to_string` cannot fail on this data; the `fs::write`
result is unwrapped by the caller.) -/
def write_to_file (todos : Todos) : FileState :=
  .content (todosToJson todos)

/-- `fn read_from_file() -> Todos`: an absent file yields the empty string
(`unwrap_or_default`), which fails to parse; any parse failure yields the
empty list (`unwrap_or(vec![])`). -/
def read_from_file (fs : FileState) : Todos :=
  match fs with
  | .absent => []
  | .invalid => []
  | .content j => (todosFromJson j).getD []

/-- Model of `str::trim` (drop leading and trailing whitespace). -/
def rustTrim (s : String) : String :=
  ⟨((s.data.dropWhile Char.isWhitespace).reverse.dropWhile Char.isWhitespace).reverse⟩

/-- `fn get_user_input() -> String`: read one line from stdin and trim it.
Input is the list of pending lines; an exhausted stream reads as `""`
(`read_line` returning no bytes). -/
def get_user_input : List String → String × List String
  | [] => ("", [])
  | l :: rest => (rustTrim l, rest)

/-- `enum Command`. -/
inductive Command where
  | add
  | print
  | exit
  | check
  | remove
  | cont
deriving Repr, DecidableEq

/-- `fn get_command(command_str: Option<&str>) -> Command`: the match arms of
the source, `None` and unrecognized tokens both giving the no-op command
(`Command::Continue`, here `Command.cont`). -/
def get_command (command_str : Option String) : Command :=
  match command_str with
  | none => .cont
  | some s =>
    if s = "add" ∨ s = "a" then .add
    else if s = "check" ∨ s = "c" then .check
    else if s = "uncheck" ∨ s = "u" then .check
    else if s = "remove" ∨ s = "r" then .remove
    else if s = "print" ∨ s = "p" then .print
    else if s = "exit" ∨ s = "e" then .exit
    else .cont

/-- `fn get_new_command() -> Command`: print the menu, read a line, resolve
it with `get_command`. -/
def get_new_command (input : List String) : Command × List String :=
  let (line, rest) := get_user_input input
  (get_command (some line), rest)

/-- Model of `str::parse::<usize>`: an optional leading `+` followed by at
least one digit.  (Values ≥ 2^64 overflow and fail to parse in Rust; for
index validation this is indistinguishable from the out-of-range case, so
the model keeps the mathematical value.) -/
def parseUsize (s : String) : Option Nat :=
  let t := match s.data with
    | '+' :: rest => rest
    | l => l
  if t ≠ [] ∧ t.all Char.isDigit then
    some (t.foldl (fun acc c => acc * 10 + (c.toNat - 48)) 0)
  else
    none

/-- `fn get_operation_index(todos: &Todos) -> usize`: read lines until one
parses as a `usize` strictly below the list length (`while index == None ||
index >= Some(todos.len())`).  Recursion is on the pending input; `none`
means the input never supplies a valid index and the loop spins forever. -/
def get_operation_index (input : List String) (todos : Todos) : Option (Nat × List String) :=
  match input with
  | [] => none
  | l :: rest =>
    match parseUsize (rustTrim l) with
    | some i => if i < todos.length then some (i, rest) else get_operation_index rest todos
    | none => get_operation_index rest todos

/-- `fn add_todo(todos: &mut Todos)`: read a name and push
`Item { name: line, completed: false }`. -/
def add_todo (input : List String) (todos : Todos) : Todos × List String :=
  let (line, rest) := get_user_input input
  (todos ++ [{ name := line, completed := false }], rest)

/-- `fn check_todo(todos: &mut Todos)`: no-op on an empty list, else resolve
an index and toggle `todos[index].completed`. -/
def check_todo (input : List String) (todos : Todos) : Option (Todos × List String) :=
  if todos.length = 0 then some (todos, input)
  else
    match get_operation_index input todos with
    | none => none
    | some (i, rest) =>
      match todos[i]? with
      | some it => some (todos.set i { it with completed := !it.completed }, rest)
      | none => none

/-- `fn remove_todo(todos: &mut Todos)`: no-op on an empty list, else resolve
an index and `todos.remove(index)`. -/
def remove_todo (input : List String) (todos : Todos) : Option (Todos × List String) :=
  if todos.length = 0 then some (todos, input)
  else
    match get_operation_index input todos with
    | none => none
    | some (i, rest) => some (todos.eraseIdx i, rest)

/-- `fn print_todo(todos: &Todos, show_index: bool)`: the lines printed —
the empty-list marker when the list is empty, one line per item (optionally
prefixed with its zero-based index), and the final blank `println!()`. -/
def print_todo (todos : Todos) (show_index : Bool) : List String :=
  (if todos.length = 0 then ["[Empty Todo List]"] else []) ++
    (List.range todos.length).zipWith
      (fun i it => (if show_index then toString i ++ " " else "") ++ it.to_string) todos ++
    [""]

/-- Outcome of `process_command`: either the mutated list with the remaining
input, or process termination with an exit code. -/
inductive ProcResult where
  | ok (todos : Todos) (input : List String)
  | exited (code : Nat)

/-- `fn process_command(command: Command, todos: &mut Todos)`: dispatch on the
command; `Exit` calls `std::process::exit(1)`; `Continue` does nothing.
`none` models divergence inside the index-resolution read loop. -/
def process_command (command : Command) (input : List String) (todos : Todos) :
    Option ProcResult :=
  match command with
  | .add =>
    let (todos', input') := add_todo input todos
    some (.ok todos' input')
  | .check =>
    match check_todo input todos with
    | some (todos', input') => some (.ok todos' input')
    | none => none
  | .print => some (.ok todos input)
  | .exit => some (.exited 1)
  | .remove =>
    match remove_todo input todos with
    | some (todos', input') => some (.ok todos' input')
    | none => none
  | .cont => some (.ok todos input)

/-- Outcome of one iteration of the `loop` in `main`. -/
inductive IterResult where
  | next (fs : FileState) (input : List String)
  | exited (code : Nat) (fs : FileState)

/-- One iteration of the `loop` in `main`: load the list from the file,
process the command, and write the list back — unless the process already
exited, in which case the file is left untouched. -/
def loop_iter (command : Command) (fs : FileState) (input : List String) :
    Option IterResult :=
  let todos := read_from_file fs
  match process_command command input todos with
  | none => none
  | some (.exited code) => some (.exited code fs)
  | some (.ok todos' input') => some (.next (write_to_file todos') input')

/-! ### Helper lemmas -/

theorem Item.fromJson_toJson (it : Item) : Item.fromJson it.toJson = some it := by
  cases it
  rfl

theorem itemsFromJson_map_toJson (ts : List Item) :
    itemsFromJson (ts.map Item.toJson) = some ts := by
  induction ts with
  | nil => rfl
  | cons it rest ih => simp [itemsFromJson, Item.fromJson_toJson, ih]

theorem get_operation_index_lt {todos : Todos} {input rest : List String} {i : Nat}
    (h : get_operation_index input todos = some (i, rest)) : i < todos.length := by
  induction input generalizing rest with
  | nil => simp [get_operation_index] at h
  | cons l ls ih =>
    rw [get_operation_index] at h
    cases hp : parseUsize (rustTrim l) with
    | none =>
      simp only [hp] at h
      exact ih h
    | some k =>
      simp only [hp] at h
      by_cases hk : k < todos.length
      · rw [if_pos hk] at h
        obtain ⟨rfl, rfl⟩ := Prod.mk.injEq .. ▸ Option.some.inj h
        exact hk
      · rw [if_neg hk] at h
        exact ih h

theorem get_operation_index_progress {todos : Todos} {input : List String}
    (h : ∃ l ∈ input, ∃ i, parseUsize (rustTrim l) = some i ∧ i < todos.length) :
    ∃ i rest, get_operation_index input todos = some (i, rest) := by
  induction input with
  | nil => simp at h
  | cons l ls ih =>
    cases hp : parseUsize (rustTrim l) with
    | some k =>
      by_cases hk : k < todos.length
      · refine ⟨k, ls, ?_⟩
        rw [get_operation_index]
        simp only [hp]
        rw [if_pos hk]
      · have h' : ∃ l ∈ ls, ∃ i, parseUsize (rustTrim l) = some i ∧ i < todos.length := by
          obtain ⟨l', hl', i, hpi, hi⟩ := h
          rcases List.mem_cons.mp hl' with rfl | hmem
          · rw [hp] at hpi
            exact absurd (Option.some.inj hpi ▸ hi) hk
          · exact ⟨l', hmem, i, hpi, hi⟩
        obtain ⟨i, rest, hgoi⟩ := ih h'
        refine ⟨i, rest, ?_⟩
        rw [get_operation_index]
        simp only [hp]
        rw [if_neg hk]
        exact hgoi
    | none =>
      have h' : ∃ l ∈ ls, ∃ i, parseUsize (rustTrim l) = some i ∧ i < todos.length := by
        obtain ⟨l', hl', i, hpi, hi⟩ := h
        rcases List.mem_cons.mp hl' with rfl | hmem
        · rw [hp] at hpi
          cases hpi
        · exact ⟨l', hmem, i, hpi, hi⟩
      obtain ⟨i, rest, hgoi⟩ := ih h'
      refine ⟨i, rest, ?_⟩
      rw [get_operation_index]
      simp only [hp]
      exact hgoi

/-! ### Claims -/

/-- C1: Round-trip persistence — writing any sequence of items with
`write_to_file` and reading it back with `read_from_file` yields an identical
sequence: same length, same order, and the same `name` and `completed` value
for each item. -/
theorem round_trip (todos : Todos) : read_from_file (write_to_file todos) = todos := by
  simp [read_from_file, write_to_file, todosToJson, todosFromJson, itemsFromJson_map_toJson]

/-- C6: Load error handling — if the persisted file is absent, is not
well-formed JSON, or holds JSON that does not deserialize as the expected
array of items, `read_from_file` returns the empty list; being a total
function of the file state, it never fails. -/
theorem load_error_handling :
    read_from_file .absent = [] ∧ read_from_file .invalid = [] ∧
      ∀ j : Json, todosFromJson j = none → read_from_file (.content j) = [] := by
  refine ⟨rfl, rfl, fun j h => ?_⟩
  simp [read_from_file, h]

theorem load_error_handling_witness :
    read_from_file (.content (.bool true)) = [] :=
  load_error_handling.2.2 (.bool true) rfl

/-- C2: Add postcondition — for every starting list and every entered name
(an entered name carries no surrounding whitespace, i.e. it is fixed by
trimming), `add_todo` returns exactly the starting list with the single new
item `{name := X, completed := false}` appended at the end. -/
theorem add_todo_spec (todos : Todos) (X : String) (rest : List String)
    (h : rustTrim X = X) :
    add_todo (X :: rest) todos = (todos ++ [{ name := X, completed := false }], rest) := by
  simp [add_todo, get_user_input, h]

theorem add_todo_spec_witness :
    add_todo ["X"] [{ name := "A", completed := true }] =
      ([{ name := "A", completed := true }, { name := "X", completed := false }], []) :=
  add_todo_spec [{ name := "A", completed := true }] "X" [] (by decide)

/-- C9: Exit semantics — when the dispatched command is `Exit`, the loop
iteration terminates the process with a non-zero exit code and performs no
save: the persisted file state is exactly the one the iteration started
with. -/
theorem exit_semantics (fs : FileState) (input : List String) :
    ∃ code, loop_iter .exit fs input = some (.exited code fs) ∧ code ≠ 0 :=
  ⟨1, rfl, by decide⟩

/-- C10: Input trimming — every line read by `get_user_input` is trimmed of
leading and trailing whitespace before use; hence adding with input
`"  X  "` stores the name `"X"`, a whitespace-only input yields an item with
the empty name, and the command token `" add "` resolves like `"add"`. -/
theorem input_trimming (s : String) (rest : List String) (todos : Todos) :
    get_user_input (s :: rest) = (rustTrim s, rest) ∧
    add_todo (s :: rest) todos =
      (todos ++ [{ name := rustTrim s, completed := false }], rest) ∧
    get_new_command (s :: rest) = (get_command (some (rustTrim s)), rest) ∧
    add_todo ["  X  "] [] = ([{ name := "X", completed := false }], []) ∧
    add_todo ["   "] [] = ([{ name := "", completed := false }], []) ∧
    get_new_command [" add "] = (Command.add, []) :=
  ⟨rfl, rfl, rfl, by decide, by decide, by decide⟩

theorem zipWith_ignore_left {α β γ : Type} (f : β → γ) :
    ∀ (ns : List α) (l : List β),
      List.zipWith (fun _ x => f x) ns l = (l.take ns.length).map f
  | [], l => by simp
  | n :: ns, [] => by simp
  | n :: ns, x :: l => by simp [zipWith_ignore_left f ns l]

/-- C3: Check frame property — whenever the index-resolution loop yields
index `i` (which requires the list to be non-empty), `check_todo` negates
the `completed` flag of exactly the item at position `i`, keeps its name,
keeps the length, and leaves every other position unchanged; on an empty
list `check_todo` is a no-op. -/
theorem check_todo_spec (todos : Todos) (input rest : List String) (i : Nat)
    (h : get_operation_index input todos = some (i, rest)) :
    (∃ it, todos[i]? = some it ∧
      check_todo input todos =
        some (todos.set i { it with completed := !it.completed }, rest) ∧
      (todos.set i { it with completed := !it.completed }).length = todos.length ∧
      (todos.set i { it with completed := !it.completed })[i]? =
        some { it with completed := !it.completed } ∧
      ∀ j, j ≠ i → (todos.set i { it with completed := !it.completed })[j]? = todos[j]?) ∧
    ∀ inp, check_todo inp ([] : Todos) = some ([], inp) := by
  have hi : i < todos.length := get_operation_index_lt h
  refine ⟨⟨todos[i], List.getElem?_eq_getElem hi, ?_, ?_, ?_, ?_⟩, fun inp => rfl⟩
  · rw [check_todo, if_neg (by omega)]
    simp only [h, List.getElem?_eq_getElem hi]
  · simp
  · simp [List.getElem?_set_self, hi]
  · intro j hj
    exact List.getElem?_set_ne (Ne.symm hj)

theorem check_todo_spec_witness :
    check_todo ["1"] [{ name := "A", completed := false }, { name := "B", completed := true }] =
      some ([{ name := "A", completed := false }, { name := "B", completed := false }], []) := by
  obtain ⟨⟨it, hit, heq, -⟩, -⟩ :=
    check_todo_spec [{ name := "A", completed := false }, { name := "B", completed := true }]
      ["1"] [] 1 (by decide)
  have hit' : it = { name := "B", completed := true } := by
    simpa using hit.symm
  subst hit'
  exact heq.trans (by decide)

/-- C4: Remove postcondition — whenever the index-resolution loop yields
index `i`, `remove_todo` deletes exactly the item at position `i`: the
result is `take i ++ drop (i+1)`, so the remaining items keep their relative
order and the length decreases by exactly one; on an empty list
`remove_todo` is a no-op. -/
theorem remove_todo_spec (todos : Todos) (input rest : List String) (i : Nat)
    (h : get_operation_index input todos = some (i, rest)) :
    remove_todo input todos = some (todos.eraseIdx i, rest) ∧
    todos.eraseIdx i = todos.take i ++ todos.drop (i + 1) ∧
    (todos.eraseIdx i).length = todos.length - 1 ∧
    ∀ inp, remove_todo inp ([] : Todos) = some ([], inp) := by
  have hi : i < todos.length := get_operation_index_lt h
  refine ⟨?_, List.eraseIdx_eq_take_drop_succ todos i, ?_, fun inp => rfl⟩
  · rw [remove_todo, if_neg (by omega)]
    simp only [h]
  · rw [List.length_eraseIdx]
    simp [hi]

theorem remove_todo_spec_witness :
    remove_todo ["0"] [{ name := "A", completed := false }, { name := "B", completed := false }] =
      some ([{ name := "B", completed := false }], []) := by
  obtain ⟨heq, -, -, -⟩ :=
    remove_todo_spec [{ name := "A", completed := false }, { name := "B", completed := false }]
      ["0"] [] 0 (by decide)
  exact heq.trans (by decide)

/-- C5: Index-resolution safety — for a non-empty list, `get_operation_index`
only returns an index strictly below the list length (so the element access
it guards is in bounds and never `none`), and whenever the input stream
eventually supplies a line parsing as a valid index, `check_todo` and
`remove_todo` return a result instead of looping forever, so their
out-of-bounds branches are unreachable. -/
theorem index_resolution_safe (todos : Todos) (input : List String)
    (hne : todos ≠ []) :
    (∀ i rest, get_operation_index input todos = some (i, rest) →
        i < todos.length ∧ todos[i]? ≠ none) ∧
    ((∃ l ∈ input, ∃ i, parseUsize (rustTrim l) = some i ∧ i < todos.length) →
        check_todo input todos ≠ none ∧ remove_todo input todos ≠ none) := by
  have hlen : ¬todos.length = 0 := by
    simpa using fun h0 => hne (List.length_eq_zero.mp h0)
  constructor
  · intro i rest h
    have hi := get_operation_index_lt h
    exact ⟨hi, by simp [List.getElem?_eq_getElem hi]⟩
  · intro hex
    obtain ⟨i, rest, hgoi⟩ := get_operation_index_progress hex
    have hi := get_operation_index_lt hgoi
    constructor
    · rw [check_todo, if_neg hlen]
      simp only [hgoi, List.getElem?_eq_getElem hi]
      simp
    · rw [remove_todo, if_neg hlen]
      simp only [hgoi]
      simp

theorem index_resolution_safe_witness :
    check_todo ["0"] [{ name := "A", completed := false }] ≠ none :=
  ((index_resolution_safe [{ name := "A", completed := false }] ["0"] (by decide)).2
    ⟨"0", by decide, 0, by decide, by decide⟩).1

/-- C7: Command resolution — `"check"`, `"c"`, `"uncheck"`, `"u"` all resolve
to Check, `"add"`/`"a"` to Add, `"remove"`/`"r"` to Remove, `"print"`/`"p"`
to Print, `"exit"`/`"e"` to Exit; absent input resolves to Continue; every
other token resolves to Continue, and processing Continue mutates nothing. -/
theorem command_resolution :
    (get_command (some "check") = .check ∧ get_command (some "c") = .check ∧
     get_command (some "uncheck") = .check ∧ get_command (some "u") = .check ∧
     get_command (some "add") = .add ∧ get_command (some "a") = .add ∧
     get_command (some "remove") = .remove ∧ get_command (some "r") = .remove ∧
     get_command (some "print") = .print ∧ get_command (some "p") = .print ∧
     get_command (some "exit") = .exit ∧ get_command (some "e") = .exit ∧
     get_command none = .cont) ∧
    (∀ s : String,
      s ∉ (["add", "a", "check", "c", "uncheck", "u", "remove", "r", "print", "p",
        "exit", "e"] : List String) →
      get_command (some s) = .cont) ∧
    (∀ (todos : Todos) (input : List String),
      process_command .cont input todos = some (.ok todos input)) := by
  refine ⟨by decide, ?_, fun todos input => rfl⟩
  intro s hs
  simp only [List.mem_cons, List.not_mem_nil, or_false, not_or] at hs
  obtain ⟨h1, h2, h3, h4, h5, h6, h7, h8, h9, h10, h11, h12⟩ := hs
  simp [get_command, h1, h2, h3, h4, h5, h6, h7, h8, h9, h10, h11, h12]

theorem command_resolution_witness :
    get_command (some "zz") = Command.cont :=
  command_resolution.2.1 "zz" (by decide)

/-- C8: Display formatting — `Item.to_string` is `"[x] "` followed by the
name when `completed` is true and `"[ ] "` followed by the name otherwise;
`print_todo` without indices renders each item by `Item.to_string`; and the
empty list renders the explicit empty-list marker. -/
theorem display_formatting (it : Item) (todos : Todos) (b : Bool) :
    it.to_string = (if it.completed then "[x] " ++ it.name else "[ ] " ++ it.name) ∧
    print_todo todos false =
      (if todos.length = 0 then ["[Empty Todo List]"] else []) ++
        todos.map Item.to_string ++ [""] ∧
    print_todo [] b = ["[Empty Todo List]", ""] := by
  refine ⟨rfl, ?_, rfl⟩
  rw [print_todo]
  have : (List.range todos.length).zipWith
      (fun i it => (if false then toString i ++ " " else "") ++ Item.to_string it) todos =
      todos.map Item.to_string := by
    have h2 := zipWith_ignore_left (fun it : Item => "" ++ Item.to_string it)
      (List.range todos.length) todos
    simp only [if_neg Bool.false_ne_true] at h2 ⊢
    rw [h2]
    simp
  rw [this]

end TodoRs
